import Mathlib

set_option maxRecDepth 40000

/-!
Verification development for the support-agent repository.

The repository is a retrieval-augmented customer-support responder built on
four pieces of source code:

* `knowledge_base.py` — `KnowledgeBase` with `load_documents` (directory load
  plus `RecursiveCharacterTextSplitter(chunk_size=800, chunk_overlap=100)`),
  `create_vectorstore`, `load_vectorstore` and `search`;
* `ticket_classifier.py` — `create_classifier` returning the chain
  `prompt | llm | JsonOutputParser(pydantic_object=TicketClassification)`;
* `response_generator.py` — `ResponseGenerator.generate_response`;
* `app.py` / `server/api.py` — UI and transport layers (out of scope).

The models below are shallow embeddings of those functions.  Text is modelled
as `List Char`, python dicts as association lists, the generation model and
the embedding model as oracle functions supplied by the caller (they are
external services), and the third-party library calls that the source makes
(`RecursiveCharacterTextSplitter.split_documents`, `langchain_chroma.Chroma`,
`JsonOutputParser.parse`) are translated from the behaviour of those library
functions, since the repository delegates to them directly.
-/

deriving instance DecidableEq for Except

/-- A langchain `Document`: `page_content` plus a string-keyed metadata
mapping (the repository only ever reads the string-valued `source` key). -/
structure Document where
  content : List Char
  metadata : List (String × String)
deriving DecidableEq, Repr

/-- Sum of the lengths of a list of character lists (the running `total`
maintained by `TextSplitter._merge_splits`, whose `length_function` is
`len` and whose merge separator is the empty string). -/
def sumLen (ls : List (List Char)) : Nat :=
  (ls.map List.length).sum

namespace TextSplitter

/-- Leftmost occurrence of the literal separator `sep` in `text`:
`some (pre, rest)` with `text = pre ++ sep ++ rest`, or `none` when `sep`
does not occur.  This is the primitive underlying python
`re.split(f"({re.escape(sep)})", text)` for a literal separator. -/
def findSplit (sep : List Char) : List Char → Option (List Char × List Char)
  | [] => none
  | c :: rest =>
    if sep.isPrefixOf (c :: rest) then some ([], (c :: rest).drop sep.length)
    else (findSplit sep rest).map (fun pr => (c :: pr.1, pr.2))

theorem isPrefixOf_eq_append {sep text : List Char} (h : sep.isPrefixOf text = true) :
    text = sep ++ text.drop sep.length := by
  induction sep generalizing text with
  | nil => simp
  | cons a as ih =>
    cases text with
    | nil => simp [List.isPrefixOf] at h
    | cons b bs =>
      simp only [List.isPrefixOf, Bool.and_eq_true, beq_iff_eq] at h
      obtain ⟨rfl, h2⟩ := h
      simpa using ih h2

theorem findSplit_eq {sep : List Char} : ∀ {text pre rest : List Char},
    findSplit sep text = some (pre, rest) → text = pre ++ sep ++ rest := by
  intro text
  induction text with
  | nil => intro pre rest h; simp [findSplit] at h
  | cons c cs ih =>
    intro pre rest h
    rw [findSplit] at h
    by_cases hp : sep.isPrefixOf (c :: cs) = true
    · rw [if_pos hp] at h
      simp only [Option.some.injEq, Prod.mk.injEq] at h
      obtain ⟨h1, h2⟩ := h
      subst h1
      subst h2
      simpa using isPrefixOf_eq_append hp
    · rw [if_neg hp] at h
      cases hf : findSplit sep cs with
      | none => rw [hf] at h; simp at h
      | some pr =>
        obtain ⟨p, r⟩ := pr
        rw [hf] at h
        simp only [Option.map_some', Option.some.injEq, Prod.mk.injEq] at h
        obtain ⟨h1, h2⟩ := h
        subst h1
        subst h2
        have := ih hf
        simp [this]

theorem findSplit_rest_lt {sep text pre rest : List Char} (hs : sep ≠ [])
    (h : findSplit sep text = some (pre, rest)) : rest.length < text.length := by
  have he := findSplit_eq h
  have : 1 ≤ sep.length := by
    cases sep with
    | nil => exact absurd rfl hs
    | cons _ _ => simp
  rw [he]
  simp only [List.append_assoc, List.length_append]
  omega

/-- The sequence of inter-separator pieces of `text` (what
`re.split(separator, text)` without capture would return, including empty
pieces): recursion over leftmost non-overlapping occurrences.  The `fuel`
argument makes the recursion structural (each occurrence consumes at least
one character, so `text.length` is enough fuel); with the fuel exhausted the
text is returned whole, which agrees with the intended behaviour whenever
`text.length ≤ fuel` (the only text of length 0 is empty and has no
occurrence of a nonempty separator). -/
def rawPiecesF (sep : List Char) : Nat → List Char → List (List Char)
  | 0, text => [text]
  | fuel + 1, text =>
    if sep = [] then [text]
    else
      match findSplit sep text with
      | none => [text]
      | some (pre, rest) => pre :: rawPiecesF sep fuel rest

/-- The inter-separator pieces of `text`, with adequate fuel. -/
def rawPieces (sep text : List Char) : List (List Char) :=
  rawPiecesF sep text.length text

/-- Python `_split_text_with_regex(text, re.escape(separator), keep_separator=True)`:
for a nonempty separator, split into pieces and re-attach each separator
occurrence to the front of the following piece, dropping empty strings;
for the empty separator, `list(text)` (single characters), dropping empties. -/
def splitWithSep (sep : List Char) (text : List Char) : List (List Char) :=
  if sep = [] then (text.map (fun c => [c])).filter (· ≠ [])
  else
    (match rawPieces sep text with
      | [] => []
      | p :: ps => p :: ps.map (fun q => sep ++ q)).filter (· ≠ [])

/-- The separator-selection loop at the top of
`RecursiveCharacterTextSplitter._split_text`: walk the separator list; stop
at the first empty separator (returning it with no remaining separators), or
at the first separator occurring in `text` (returning it with the remaining
suffix of the list); default to the last separator with no remainder. -/
def chooseSep (text : List Char) : List (List Char) → (List Char × List (List Char))
  | [] => ([], [])
  | [s] => if s = [] then ([], []) else (s, [])
  | s :: s2 :: rest =>
    if s = [] then ([], [])
    else if (findSplit s text).isSome then (s, s2 :: rest)
    else chooseSep text (s2 :: rest)

theorem chooseSep_snd_length {seps : List (List Char)} (text : List Char)
    (h : seps ≠ []) : (chooseSep text seps).2.length < seps.length := by
  induction seps with
  | nil => exact absurd rfl h
  | cons s rest ih =>
    cases rest with
    | nil =>
      by_cases hs : s = [] <;> simp [chooseSep, hs]
    | cons s2 rest2 =>
      by_cases hs : s = []
      · simp [chooseSep, hs]
      · by_cases ho : (findSplit s text).isSome
        · simp [chooseSep, hs, ho]
        · have := ih (by simp)
          simp only [chooseSep, if_neg hs, if_neg ho]
          calc (chooseSep text (s2 :: rest2)).2.length
              < (s2 :: rest2).length := this
            _ < (s :: s2 :: rest2).length := by simp

/-- The while-loop inside `TextSplitter._merge_splits` that pops splits off
the front of `current_doc` until the carried total is at most
`chunk_overlap` and appending the incoming split of length `lenD` would not
overflow `chunk_size` (the merge separator is empty, so `separator_len = 0`
and the carried total is just the sum of the split lengths). -/
def dropOverlap (ov cs lenD : Nat) : List (List Char) → List (List Char)
  | [] => []
  | c :: rest =>
    if sumLen (c :: rest) > ov ∨ (sumLen (c :: rest) + lenD > cs ∧ sumLen (c :: rest) > 0) then
      dropOverlap ov cs lenD rest
    else c :: rest

/-- Both-ends whitespace strip (python `str.strip()` as applied by
`TextSplitter._join_docs` when `strip_whitespace=True`, the default). -/
def stripWS (l : List Char) : List Char :=
  ((l.dropWhile Char.isWhitespace).reverse.dropWhile Char.isWhitespace).reverse

/-- `TextSplitter._join_docs(docs, separator="")`: join, strip whitespace,
and drop the chunk entirely when the stripped text is empty (python returns
`None`, which the caller does not append).  Returned as a list of zero or
one chunks. -/
def joinDocs (cur : List (List Char)) : List (List Char) :=
  let j := stripWS cur.flatten
  if j = [] then [] else [j]

/-- One iteration of the `for d in splits` loop of
`TextSplitter._merge_splits`: `acc.1` is the emitted `docs`, `acc.2` the
`current_doc` buffer.  On overflow with a nonempty buffer, the buffer is
joined and emitted and then popped down by the overlap loop; the incoming
split is always appended to the buffer. -/
def mergeStep (cs ov : Nat) (acc : List (List Char) × List (List Char))
    (d : List Char) : List (List Char) × List (List Char) :=
  if sumLen acc.2 + d.length > cs then
    if acc.2 = [] then (acc.1, [d])
    else (acc.1 ++ joinDocs acc.2, dropOverlap ov cs d.length acc.2 ++ [d])
  else (acc.1, acc.2 ++ [d])

/-- `TextSplitter._merge_splits(splits, separator="")` with
`chunk_size = cs`, `chunk_overlap = ov`: fold the merge step over the
splits, then flush the remaining buffer. -/
def mergeSplits (cs ov : Nat) (splits : List (List Char)) : List (List Char) :=
  let acc := splits.foldl (mergeStep cs ov) ([], [])
  acc.1 ++ joinDocs acc.2

/-- The classification of each split made by the body of the
`for s in splits` loop of `_split_text`: a split shorter than `chunk_size`
is a good split to be merged (`Sum.inl`), anything else is a pre-assembled
block of final chunks (`Sum.inr`) — either the oversized split itself (when
no separators remain) or its recursive split. -/
def flushAux (cs ov : Nat) : List (List Char) → List ((List Char) ⊕ (List (List Char))) →
    List (List Char)
  | goods, [] => mergeSplits cs ov goods
  | goods, (Sum.inl s) :: rest => flushAux cs ov (goods ++ [s]) rest
  | goods, (Sum.inr blk) :: rest => mergeSplits cs ov goods ++ blk ++ flushAux cs ov [] rest

/-- `RecursiveCharacterTextSplitter._split_text(text, separators)` with
`chunk_size = cs`, `chunk_overlap = ov`, `length_function = len`,
`keep_separator = True`, `strip_whitespace = True` (all as constructed by
`KnowledgeBase.load_documents`): choose the active separator, split, then
merge good splits and recurse into oversized ones.  The `fuel` argument
makes the recursion structural (each recursive call runs on a strictly
shorter separator list, so `seps.length` is enough fuel); the fuel-0 case
is the body for an empty separator list, where `chooseSep` selects the
empty separator with no remainder and no recursion can happen. -/
def splitTextF (cs ov : Nat) : Nat → List (List Char) → List Char → List (List Char)
  | 0, seps, text =>
    flushAux cs ov []
      ((splitWithSep (chooseSep text seps).1 text).map (fun s =>
        if s.length < cs then Sum.inl s else Sum.inr [s]))
  | fuel + 1, seps, text =>
    flushAux cs ov []
      ((splitWithSep (chooseSep text seps).1 text).map (fun s =>
        if s.length < cs then Sum.inl s
        else if (chooseSep text seps).2 = [] then Sum.inr [s]
        else Sum.inr (splitTextF cs ov fuel (chooseSep text seps).2 s)))

/-- `RecursiveCharacterTextSplitter._split_text`, with adequate fuel. -/
def splitText (cs ov : Nat) (seps : List (List Char)) (text : List Char) :
    List (List Char) :=
  splitTextF cs ov seps.length seps text

/-- The default separator list of `RecursiveCharacterTextSplitter`
(paragraph break, line break, space, character boundary). -/
def defaultSeparators : List (List Char) :=
  [['\n', '\n'], ['\n'], [' '], []]

/-- `RecursiveCharacterTextSplitter.split_documents` as invoked by
`KnowledgeBase.load_documents`: split each document text and wrap every
chunk in a `Document` carrying a copy of the parent metadata. -/
def splitDocuments (cs ov : Nat) (seps : List (List Char)) (docs : List Document) :
    List Document :=
  (docs.map (fun d =>
    (splitText cs ov seps d.content).map (fun c => Document.mk c d.metadata))).flatten

end TextSplitter

/-- The splitting stage of `KnowledgeBase.load_documents`: the source
constructs `RecursiveCharacterTextSplitter(chunk_size=800, chunk_overlap=100,
length_function=len)` and calls `split_documents` on the loaded documents
(the `DirectoryLoader` filesystem stage is not modelled; the claims concern
the split). -/
def KnowledgeBase.load_documents_split (docs : List Document) : List Document :=
  TextSplitter.splitDocuments 800 100 TextSplitter.defaultSeparators docs

/-! ## KnowledgeBase (`src/knowledge_base.py`)

`KnowledgeBase` holds a `persist_directory`, a `HuggingFaceEmbeddings`
text-to-vector function, and a `vectorstore` field that starts as `None`.
The embedding model is an external service, modelled as an oracle function
`embedFn`.  The Chroma vector store is modelled concretely as the list of
`(document, vector)` pairs it holds; `similarity_search` is exact nearest-
neighbour search by squared L2 distance (Chroma's default space), sorted
ascending with a stable sort, truncated to `k` results, with the library's
rejection of non-positive `n_results` surfaced as a library-level error.
The persisted on-disk state is an oracle `disk : String → Option VectorStore`;
`langchain_chroma.Chroma(persist_directory=..., embedding_function=...)`
attaches to the collection found there, or to a fresh empty collection when
nothing is persisted — the constructor itself never fails. -/

/-- A Chroma collection: the `(chunk, embedding-vector)` pairs it stores,
in insertion order.  Embedding-space scalars are modelled as integers (the
real embedding model emits floating-point vectors, which are outside the
embedding; only the ordering of distances matters to the search path). -/
structure VectorStore where
  entries : List (Document × List ℤ)
deriving DecidableEq

/-- The errors the search path can surface.  `invalidArgument` and
`indexNotFound` are the typed failures named by the specification (the
program itself never constructs either); `libraryError` is a generic
exception escaping from the underlying library. -/
inductive KBErr where
  | invalidArgument
  | indexNotFound
  | libraryError (msg : String)
deriving DecidableEq

/-- The mutable state of a `KnowledgeBase` instance: `persist_directory`,
the embedding function held in `self.embeddings`, and the `vectorstore`
field initialised to `None` by `__init__`. -/
structure KBState where
  persistDirectory : String
  embedFn : String → List ℤ
  vectorstore : Option VectorStore

/-- `KnowledgeBase.__init__(persist_directory)`. -/
def KnowledgeBase.init (persistDirectory : String) (embedFn : String → List ℤ) : KBState :=
  { persistDirectory := persistDirectory, embedFn := embedFn, vectorstore := none }

/-- Squared L2 distance between two vectors (Chroma's default `l2` space). -/
def sqDist (v w : List ℤ) : ℤ :=
  ((v.zip w).map (fun p => (p.1 - p.2) * (p.1 - p.2))).sum

/-- Insert an entry into a distance-ascending list, before every entry at
the same distance (so that sorting is stable: ties stay in insertion
order). -/
def insertRanked (x : Document × ℤ) : List (Document × ℤ) → List (Document × ℤ)
  | [] => [x]
  | y :: ys => if y.2 < x.2 then y :: insertRanked x ys else x :: y :: ys

/-- Stable sort by distance ascending. -/
def sortRanked : List (Document × ℤ) → List (Document × ℤ)
  | [] => []
  | x :: xs => insertRanked x (sortRanked xs)

/-- The full ranking of a collection for a query: entries paired with their
distance to the embedded query, stably sorted by distance ascending
(nearest first, ties kept in insertion order). -/
def rankedFor (embedFn : String → List ℤ) (vs : VectorStore) (q : String) : List Document :=
  (sortRanked (vs.entries.map (fun e => (e.1, sqDist (embedFn q) e.2)))).map (·.1)

/-- The message of the generic exception chromadb's `n_results` validation
raises for a non-positive `k`. -/
def chromaNResultsMsg : String :=
  "chromadb: number of requested results cannot be negative or zero"

/-- `Chroma.similarity_search(query, k)`: exact k-NN against the stored
vectors.  The library validates `n_results` and rejects `k ≤ 0` with its own
generic exception; a `k` beyond the corpus size returns all available
entries. -/
def chromaSimilaritySearch (embedFn : String → List ℤ) (vs : VectorStore)
    (q : String) (k : ℤ) : Except KBErr (List Document) :=
  if k ≤ 0 then
    .error (.libraryError chromaNResultsMsg)
  else
    .ok ((rankedFor embedFn vs q).take k.toNat)

/-- `KnowledgeBase.load_vectorstore`: `self.vectorstore = Chroma(
persist_directory=self.persist_directory, embedding_function=self.embeddings)`.
The Chroma constructor attaches to whatever collection is persisted at the
directory, or to a fresh empty collection when none is; it has no failure
path. -/
def KnowledgeBase.load_vectorstore (disk : String → Option VectorStore)
    (st : KBState) : KBState :=
  { st with vectorstore := some ((disk st.persistDirectory).getD ⟨[]⟩) }

/-- `KnowledgeBase.create_vectorstore(documents)`:
`self.vectorstore = Chroma.from_documents(documents, embedding, ...)` —
embeds every chunk and stores the pairs (the write to disk is a side effect
on the persisted copy, not on the in-process state modelled here). -/
def KnowledgeBase.create_vectorstore (st : KBState) (docs : List Document) : KBState :=
  { st with vectorstore := some ⟨docs.map (fun d => (d, st.embedFn (String.mk d.content)))⟩ }

/-- `KnowledgeBase.search(query, k)`: if `self.vectorstore` is `None`, call
`self.load_vectorstore()` first; then delegate to
`self.vectorstore.similarity_search(query, k=k)` with `k` passed through
unchanged.  Returns the state after the call together with the outcome. -/
def KnowledgeBase.search (disk : String → Option VectorStore) (st : KBState)
    (q : String) (k : ℤ) : KBState × Except KBErr (List Document) :=
  match st.vectorstore with
  | none =>
    let st2 := KnowledgeBase.load_vectorstore disk st
    (st2, chromaSimilaritySearch st2.embedFn (st2.vectorstore.getD ⟨[]⟩) q k)
  | some vs => (st, chromaSimilaritySearch st.embedFn vs q k)

/-! ## Ticket classifier (`src/ticket_classifier.py`)

`create_classifier` builds `prompt | llm | JsonOutputParser(pydantic_object=
TicketClassification)`.  The Groq LLM is an external service, modelled as an
oracle from the formatted prompt and a call index to an output.  A JSON
output is modelled as a flat string-keyed object of scalar values (all a
classification ever is).  `JsonOutputParser.parse` extracts the JSON from
the model message and returns it as a plain dict: the `pydantic_object`
only supplies the format instructions interpolated into the prompt, and no
validation against `TicketClassification` is performed on the way out;
unparseable text raises the generic `OutputParserException`, which carries
the offending raw text.  Invoking the chain makes exactly one LLM call,
which the model below counts explicitly. -/

/-- A scalar JSON value. -/
inductive JVal where
  | str (s : String)
  | num (q : ℚ)
  | boolean (b : Bool)
  | null
deriving DecidableEq

/-- A flat JSON object, as `json.loads` would hand it to the caller. -/
def JObj := List (String × JVal)
deriving DecidableEq

/-- What one LLM generation call produces, as seen by the output stage:
either text that parses to a JSON object, or text that does not. -/
inductive LLMOutput where
  | json (o : JObj)
  | malformed (raw : String)

/-- `langchain_core.exceptions.OutputParserException`, carrying the raw
offending LLM output. -/
structure OutputParserException where
  raw : String
deriving DecidableEq

/-- `JsonOutputParser.parse`: return the parsed JSON object unchanged, or
raise `OutputParserException` with the raw text.  No schema validation. -/
def jsonOutputParse (out : LLMOutput) : Except OutputParserException JObj :=
  match out with
  | .json o => .ok o
  | .malformed raw => .error ⟨raw⟩

/-- The classifier `ChatPromptTemplate` applied to a ticket: the fixed
system instruction (with the format instructions already substituted in by
`.partial`) followed by the user message `Ticket: {ticket_text}`. -/
def classifierPrompt (ticketText : String) : String :=
  "You are a customer support ticket classifier. Analyze tickets and " ++
  "categorize them: billing (payment, refunds, charges, invoices); " ++
  "technical (bugs, features not working, errors); account (login, " ++
  "password, profile issues); general (questions, feedback, other). " ++
  "Priority levels: urgent, high, medium, low. " ++
  "Return a JSON object with category, priority, sentiment, confidence." ++
  "\nTicket: " ++ ticketText

/-- Invoking the chain returned by `create_classifier` on
`{"ticket_text": ticketText}`: format the prompt, make one generation call
(the oracle consumed at call index `0`), parse the output.  The second
component counts the generation calls made — always exactly one, as the
chain `prompt | llm | parser` contains no retry logic. -/
def classifierInvoke (llm : String → Nat → LLMOutput) (ticketText : String) :
    Except OutputParserException JObj × Nat :=
  (jsonOutputParse (llm (classifierPrompt ticketText) 0), 1)

/-- The enumerated/bounded domains of the specification data model,
following the spec text: category in billing/technical/account/general,
priority in low/medium/high/urgent, sentiment in positive/neutral/negative,
confidence a number in [0,1].  This definition follows the words of the
spec, to be compared with what the code returns. -/
def specValidClassification (o : JObj) : Bool :=
  (match o.lookup "category" with
    | some (.str c) => c ∈ ["billing", "technical", "account", "general"]
    | _ => false) &&
  (match o.lookup "priority" with
    | some (.str p) => p ∈ ["low", "medium", "high", "urgent"]
    | _ => false) &&
  (match o.lookup "sentiment" with
    | some (.str s) => s ∈ ["positive", "neutral", "negative"]
    | _ => false) &&
  (match o.lookup "confidence" with
    | some (.num q) => 0 ≤ q && q ≤ 1
    | _ => false)

/-! ## Response generator (`src/response_generator.py`)

`ResponseGenerator.generate_response(ticket_text)`:
classify, retrieve `k=5` chunks, join their texts with a blank line into
`context`, invoke the response chain on context/classification/question,
and return `{response, classification, sources}` where `sources` maps each
retrieved chunk to `doc.metadata.get("source", "unknown")`.  The response
chain `prompt | llm | StrOutputParser` is an external generation call,
modelled as a total oracle from its three inputs to the response text (a
successful transport). -/

/-- The dict returned by `generate_response`. -/
structure TicketResult where
  response : String
  classification : JObj
  sources : List String

/-- A failure escaping `generate_response`: the classifier chain raising on
unparseable output, or an exception from the knowledge-base search. -/
inductive GenFailure where
  | classifierFailure (e : OutputParserException)
  | kbFailure (e : KBErr)

/-- `"\n\n".join(doc.page_content for doc in relevant_docs)`. -/
def joinContext (docs : List Document) : List Char :=
  (['\n', '\n'] : List Char).intercalate (docs.map Document.content)

/-- `doc.metadata.get("source", "unknown")`. -/
def sourceOf (d : Document) : String :=
  (d.metadata.lookup "source").getD "unknown"

/-- `ResponseGenerator.generate_response(ticket_text)`:
classification first (its failure propagates before any retrieval), then
`self.knowledge_base.search(ticket_text, k=5)`, then the response chain on
the joined context, the classification dict and the raw ticket text. -/
def generate_response (llmC : String → Nat → LLMOutput)
    (disk : String → Option VectorStore) (st : KBState)
    (chain : List Char → JObj → String → String) (ticketText : String) :
    KBState × Except GenFailure TicketResult :=
  match (classifierInvoke llmC ticketText).1 with
  | .error e => (st, .error (.classifierFailure e))
  | .ok classification =>
    let sr := KnowledgeBase.search disk st ticketText 5
    match sr.2 with
    | .error e => (sr.1, .error (.kbFailure e))
    | .ok docs =>
      let context := joinContext docs
      let response := chain context classification ticketText
      (sr.1, .ok { response := response, classification := classification,
                   sources := docs.map sourceOf })

/-! ## Concrete fixtures

Concrete instances used to settle the claims at concrete inputs: an empty
persisted-index oracle, a trivial embedding oracle, a fresh `KnowledgeBase`
state, a loaded two-chunk store, and concrete classifier/generation
oracles. -/

/-- A disk with no persisted index anywhere. -/
def emptyDisk : String → Option VectorStore := fun _ => none

/-- A trivial embedding oracle (every text embeds to the vector `[0]`). -/
def zeroEmbed : String → List ℤ := fun _ => [0]

/-- A freshly constructed `KnowledgeBase` (its `vectorstore` is `None`). -/
def kb0 : KBState := KnowledgeBase.init "./chroma_db" zeroEmbed

/-- A chunk carrying a `source` metadata entry. -/
def docA : Document := ⟨"To cancel your plan go to Settings.".data, [("source", "billing.txt")]⟩

/-- A chunk whose metadata has no `source` key. -/
def docB : Document := ⟨"Our support hours are 9 to 5.".data, []⟩

/-- A two-chunk store: `docA` at distance 0 from every query, `docB` at
distance 1. -/
def vs2 : VectorStore := ⟨[(docA, [0]), (docB, [1])]⟩

/-- A `KnowledgeBase` whose store is already loaded with `vs2`. -/
def kb2 : KBState :=
  { persistDirectory := "./chroma_db", embedFn := zeroEmbed, vectorstore := some vs2 }

/-- A classification inside every enumerated domain of the spec. -/
def goodClassification : JObj :=
  [("category", JVal.str "technical"), ("priority", JVal.str "high"),
   ("sentiment", JVal.str "negative"), ("confidence", JVal.num 1)]

/-- A classification outside every enumerated domain of the spec (and with
`confidence` above 1). -/
def badClassification : JObj :=
  [("category", JVal.str "weather"), ("priority", JVal.str "someday"),
   ("sentiment", JVal.str "confused"), ("confidence", JVal.num 2)]

/-- An LLM oracle answering every call with the same JSON object. -/
def llmOf (o : JObj) : String → Nat → LLMOutput := fun _ _ => .json o

/-- An LLM oracle whose first call returns unparseable text and whose later
calls return a valid classification. -/
def llmFlaky : String → Nat → LLMOutput := fun _ n =>
  if n = 0 then LLMOutput.malformed "category retail" else LLMOutput.json goodClassification

/-- A concrete response-generation oracle. -/
def chain0 : List Char → JObj → String → String := fun _ _ _ => "We are sorry to hear that."

/-! ## Claims C1, C2, C9, C10 — the knowledge-base search path -/

/-- C1 (counterexample).  The claim states that `search(q, k=0)` raises
`InvalidArgument`.  On a fresh `KnowledgeBase` with no persisted index, the
outcome of `search("q", 0)` is the library's own generic rejection of
`n_results=0`, not an `InvalidArgument` error: `KnowledgeBase.search`
contains no validation of `k` and the program defines no `InvalidArgument`
anywhere. -/
theorem c1_counterexample :
    (KnowledgeBase.search emptyDisk kb0 "q" 0).2 ≠ Except.error KBErr.invalidArgument ∧
    (KnowledgeBase.search emptyDisk kb0 "q" 0).2 =
      Except.error (KBErr.libraryError chromaNResultsMsg) := by
  refine ⟨?_, rfl⟩
  intro h
  rw [show (KnowledgeBase.search emptyDisk kb0 "q" 0).2 =
    Except.error (KBErr.libraryError chromaNResultsMsg) from rfl] at h
  exact KBErr.noConfusion (Except.error.inj h)

/-- C1 (amended).  `KnowledgeBase.search` performs no validation of `k`:
for every state and query, a non-positive `k` is forwarded unchanged to the
underlying `similarity_search`, whose library-level rejection is what
surfaces — never the spec's `InvalidArgument`, which the program does not
define or raise. -/
theorem c1_search_forwards_nonpositive_k (disk : String → Option VectorStore)
    (st : KBState) (q : String) (k : ℤ) (hk : k ≤ 0) :
    (KnowledgeBase.search disk st q k).2 =
      Except.error (KBErr.libraryError chromaNResultsMsg) ∧
    (KnowledgeBase.search disk st q k).2 ≠ Except.error KBErr.invalidArgument := by
  have hsim : ∀ e vs, chromaSimilaritySearch e vs q k =
      Except.error (KBErr.libraryError chromaNResultsMsg) := by
    intro e vs
    simp [chromaSimilaritySearch, if_pos hk]
  cases hvs : st.vectorstore with
  | none =>
    constructor
    · simp [KnowledgeBase.search, hvs, hsim]
    · simp [KnowledgeBase.search, hvs, hsim]
  | some vs =>
    constructor
    · simp [KnowledgeBase.search, hvs, hsim]
    · simp [KnowledgeBase.search, hvs, hsim]

/-- C1 (witness): the amended theorem applied at `k = 0` on a concrete
fresh state. -/
theorem c1_witness :
    (KnowledgeBase.search emptyDisk kb0 "q" 0).2 =
      Except.error (KBErr.libraryError chromaNResultsMsg) ∧
    (KnowledgeBase.search emptyDisk kb0 "q" 0).2 ≠ Except.error KBErr.invalidArgument :=
  c1_search_forwards_nonpositive_k emptyDisk kb0 "q" 0 (by decide)

/-- C2 (counterexample).  The claim states that `search` called before any
build/load with no persisted index present raises `IndexNotFoundError`.  On
a fresh `KnowledgeBase` over a disk with nothing persisted, `search("q", 3)`
instead returns normally with an empty result: the transparently attached
Chroma handle is a fresh empty collection, and the program defines no
`IndexNotFoundError` anywhere. -/
theorem c2_counterexample :
    (KnowledgeBase.search emptyDisk kb0 "q" 3).2 = Except.ok [] ∧
    (KnowledgeBase.search emptyDisk kb0 "q" 3).2 ≠ Except.error KBErr.indexNotFound := by
  refine ⟨rfl, ?_⟩
  intro h
  rw [show (KnowledgeBase.search emptyDisk kb0 "q" 3).2 = Except.ok [] from rfl] at h
  exact Except.noConfusion h

/-- C2 (amended).  The lazy-load half of the claim holds: `search` invoked
before any build/load calls `load_vectorstore` first.  But the load cannot
fail: with no persisted index at the configured location it attaches a
fresh empty collection, and the search returns `ok []` normally instead of
raising `IndexNotFoundError`. -/
theorem c2_lazy_load_cannot_fail (disk : String → Option VectorStore)
    (st : KBState) (q : String) (k : ℤ) (h0 : st.vectorstore = none)
    (hd : disk st.persistDirectory = none) (hk : 1 ≤ k) :
    (KnowledgeBase.search disk st q k).1 = KnowledgeBase.load_vectorstore disk st ∧
    (KnowledgeBase.search disk st q k).2 = Except.ok [] := by
  have hnk : ¬(k ≤ 0) := by omega
  constructor
  · simp [KnowledgeBase.search, h0]
  · simp [KnowledgeBase.search, h0, KnowledgeBase.load_vectorstore, hd,
      chromaSimilaritySearch, if_neg hnk, rankedFor, sortRanked]

/-- C2 (witness): the amended theorem applied on the concrete fresh state
over the empty disk at `k = 3`. -/
theorem c2_witness :
    (KnowledgeBase.search emptyDisk kb0 "q" 3).1 = KnowledgeBase.load_vectorstore emptyDisk kb0 ∧
    (KnowledgeBase.search emptyDisk kb0 "q" 3).2 = Except.ok [] :=
  c2_lazy_load_cannot_fail emptyDisk kb0 "q" 3 rfl rfl (by decide)

/-- C9 (confirmed).  For a fixed state and query, the ranked chunk sequence
of `search(q, k)` is a prefix of that of `search(q, k+1)`: the underlying
ranking is a fixed stable distance-ascending ordering independent of `k`,
and `k` only truncates it. -/
theorem c9_search_prefix_monotone (disk : String → Option VectorStore)
    (st : KBState) (q : String) (k : ℤ) (r1 r2 : List Document) (hk : 1 ≤ k)
    (h1 : (KnowledgeBase.search disk st q k).2 = Except.ok r1)
    (h2 : (KnowledgeBase.search disk st q (k + 1)).2 = Except.ok r2) :
    r1 <+: r2 := by
  have hnk : ¬(k ≤ 0) := by omega
  have hnk1 : ¬(k + 1 ≤ 0) := by omega
  have htn : (k + 1).toNat = k.toNat + 1 := by omega
  have key : ∀ L : List Document, L.take k.toNat <+: L.take (k + 1).toNat := by
    intro L
    rw [htn, List.take_add]
    exact ⟨(L.drop k.toNat).take 1, rfl⟩
  cases hvs : st.vectorstore with
  | none =>
    rw [KnowledgeBase.search] at h1 h2
    simp only [hvs] at h1 h2
    rw [chromaSimilaritySearch, if_neg hnk] at h1
    rw [chromaSimilaritySearch, if_neg hnk1] at h2
    rw [Except.ok.injEq] at h1 h2
    rw [← h1, ← h2]
    exact key _
  | some vs =>
    rw [KnowledgeBase.search] at h1 h2
    simp only [hvs] at h1 h2
    rw [chromaSimilaritySearch, if_neg hnk] at h1
    rw [chromaSimilaritySearch, if_neg hnk1] at h2
    rw [Except.ok.injEq] at h1 h2
    rw [← h1, ← h2]
    exact key _

/-- C9 (witness): on the loaded two-chunk store, `search("q", 1)` returns
`[docA]`, `search("q", 2)` returns `[docA, docB]`, and the former is a
prefix of the latter, by the theorem applied at those concrete inputs. -/
theorem c9_witness : [docA] <+: [docA, docB] :=
  c9_search_prefix_monotone emptyDisk kb2 "q" 1 [docA] [docA, docB]
    (by decide) (by decide) (by decide)

/-- C10 (confirmed, implicit claim).  After any `search` returns, the
`vectorstore` field is set; a `search` on a state whose store is already
set leaves the state unchanged (the handle is reused, with no re-attach);
a second `search` after any first one never changes the state again (the
lazy load happens at most once per instance); and neither
`create_vectorstore` nor `load_vectorstore` ever resets the field to
`None` — every operation of the class leaves it set. -/
theorem c10_vectorstore_persistence (disk : String → Option VectorStore)
    (st : KBState) (q : String) (k : ℤ) :
    ((KnowledgeBase.search disk st q k).1.vectorstore.isSome = true) ∧
    (∀ vs, st.vectorstore = some vs → (KnowledgeBase.search disk st q k).1 = st) ∧
    (∀ q2 k2, (KnowledgeBase.search disk (KnowledgeBase.search disk st q k).1 q2 k2).1 =
      (KnowledgeBase.search disk st q k).1) ∧
    (∀ docs, (KnowledgeBase.create_vectorstore st docs).vectorstore.isSome = true) ∧
    ((KnowledgeBase.load_vectorstore disk st).vectorstore.isSome = true) := by
  refine ⟨?_, ?_, ?_, ?_, ?_⟩
  · cases hvs : st.vectorstore with
    | none => simp [KnowledgeBase.search, hvs, KnowledgeBase.load_vectorstore]
    | some vs => simp [KnowledgeBase.search, hvs]
  · intro vs hvs
    simp [KnowledgeBase.search, hvs]
  · intro q2 k2
    cases hvs : st.vectorstore with
    | none => simp [KnowledgeBase.search, hvs, KnowledgeBase.load_vectorstore]
    | some vs => simp [KnowledgeBase.search, hvs]
  · intro docs
    simp [KnowledgeBase.create_vectorstore]
  · simp [KnowledgeBase.load_vectorstore]

/-- C10 (witness): on the concrete loaded store, a `search` leaves the
state unchanged, by the theorem applied at that concrete input. -/
theorem c10_witness : (KnowledgeBase.search emptyDisk kb2 "q" 3).1 = kb2 :=
  (c10_vectorstore_persistence emptyDisk kb2 "q" 3).2.1 vs2 rfl

/-! ## Claims C3, C4 — the classifier chain -/

/-- C3 (counterexample).  The claim states that `classify` either returns a
classification inside the enumerated/bounded domains or raises
`ClassificationError`.  With an LLM output whose every field is
out-of-domain (and whose confidence is 2), the chain returns that object
unchanged as a success: `JsonOutputParser` performs no validation against
`TicketClassification`, whose plain `str`/`float` fields carry the domains
only in their descriptions, and the program defines no
`ClassificationError` anywhere. -/
theorem c3_counterexample :
    (classifierInvoke (llmOf badClassification) "My app crashed").1 =
      Except.ok badClassification ∧
    specValidClassification badClassification = false := by
  exact ⟨rfl, by decide⟩

/-- C3 (amended).  `classify` returns the parsed JSON object exactly as the
model produced it, with no domain validation and no clamping: whenever the
generation call yields JSON, that JSON — in or out of the spec's domains,
complete or partial — is the successful result.  Unparseable output raises
the parser's generic `OutputParserException`; no `ClassificationError`
exists in the program. -/
theorem c3_classify_returns_unvalidated (llm : String → Nat → LLMOutput)
    (t : String) (o : JObj) (h : llm (classifierPrompt t) 0 = LLMOutput.json o) :
    (classifierInvoke llm t).1 = Except.ok o := by
  simp [classifierInvoke, jsonOutputParse, h]

/-- C3 (witness): the amended theorem applied to the concrete oracle that
answers with the out-of-domain object — which `classify` returns as a
success. -/
theorem c3_witness :
    (classifierInvoke (llmOf badClassification) "ticket").1 = Except.ok badClassification :=
  c3_classify_returns_unvalidated (llmOf badClassification) "ticket" badClassification rfl

/-- C4 (counterexample).  The claim states that on schema-invalid output
`classify` retries once with the same input, and only raises after the
retry also fails.  Against an oracle whose first output is unparseable and
whose second output is a valid classification, the claim predicts the
retry succeeds with the valid classification; the chain instead makes a
single generation call and surfaces the parser's exception immediately. -/
theorem c4_counterexample :
    classifierInvoke llmFlaky "The download button does not work" =
      (Except.error ⟨"category retail"⟩, 1) ∧
    (classifierInvoke llmFlaky "The download button does not work").1 ≠
      Except.ok goodClassification := by
  refine ⟨rfl, ?_⟩
  intro h
  rw [show (classifierInvoke llmFlaky "The download button does not work").1 =
    Except.error ⟨"category retail"⟩ from rfl] at h
  exact Except.noConfusion h

/-- C4 (amended).  Invoking the classifier chain makes exactly one
generation call, with no retry: when that call's output fails to parse,
the parser's `OutputParserException` — carrying the raw offending output —
surfaces immediately. -/
theorem c4_no_retry_single_call (llm : String → Nat → LLMOutput) (t : String) :
    (classifierInvoke llm t).2 = 1 ∧
    (∀ raw, llm (classifierPrompt t) 0 = LLMOutput.malformed raw →
      (classifierInvoke llm t).1 = Except.error ⟨raw⟩) := by
  refine ⟨rfl, ?_⟩
  intro raw h
  simp [classifierInvoke, jsonOutputParse, h]

/-- C4 (witness): the amended theorem applied to the flaky oracle: one call
is made and the raw first output comes back in the exception. -/
theorem c4_witness :
    (classifierInvoke llmFlaky "t").2 = 1 ∧
    (classifierInvoke llmFlaky "t").1 = Except.error ⟨"category retail"⟩ :=
  ⟨(c4_no_retry_single_call llmFlaky "t").1,
   (c4_no_retry_single_call llmFlaky "t").2 "category retail" rfl⟩

/-! ## Claims C5, C6 — the response generator -/

/-- C5 (confirmed).  Whenever classification succeeds and retrieval returns
`docs`, `generate_response` returns a `TicketResult` whose `sources` has
exactly one entry per retrieved chunk in retrieval rank order — the map of
`metadata.get("source", "unknown")` over `docs`, with no deduplication (its
length equals the number of chunks). -/
theorem c5_sources_one_per_chunk (llmC : String → Nat → LLMOutput)
    (disk : String → Option VectorStore) (st : KBState)
    (chain : List Char → JObj → String → String) (t : String) (o : JObj)
    (docs : List Document)
    (hc : llmC (classifierPrompt t) 0 = LLMOutput.json o)
    (hs : (KnowledgeBase.search disk st t 5).2 = Except.ok docs) :
    (generate_response llmC disk st chain t).2 =
      Except.ok ⟨chain (joinContext docs) o t, o, docs.map sourceOf⟩ ∧
    (docs.map sourceOf).length = docs.length := by
  constructor
  · simp [generate_response, classifierInvoke, jsonOutputParse, hc, hs]
  · simp

/-- C5 (witness): the theorem applied on the loaded two-chunk store: the
retrieved chunks are `[docA, docB]` and the sources come back as
`["billing.txt", "unknown"]` — `docA` contributes its `source` metadata,
`docB` (which has none) contributes `"unknown"`. -/
theorem c5_witness :
    (generate_response (llmOf goodClassification) emptyDisk kb2 chain0 "ticket").2 =
      Except.ok ⟨chain0 (joinContext [docA, docB]) goodClassification "ticket",
        goodClassification, [docA, docB].map sourceOf⟩ ∧
    ([docA, docB].map sourceOf).length = [docA, docB].length :=
  c5_sources_one_per_chunk (llmOf goodClassification) emptyDisk kb2 chain0 "ticket"
    goodClassification [docA, docB] rfl (by decide)

/-- C6 (confirmed).  When retrieval returns no chunks (and classification
and the generation call succeed), `generate_response` still returns a
`TicketResult` rather than raising: the context handed to the generation
call is the empty string (`"\n\n".join` of nothing) and the returned
`sources` is empty. -/
theorem c6_empty_retrieval_ok (llmC : String → Nat → LLMOutput)
    (disk : String → Option VectorStore) (st : KBState)
    (chain : List Char → JObj → String → String) (t : String) (o : JObj)
    (hc : llmC (classifierPrompt t) 0 = LLMOutput.json o)
    (hs : (KnowledgeBase.search disk st t 5).2 = Except.ok []) :
    (generate_response llmC disk st chain t).2 =
      Except.ok ⟨chain (joinContext []) o t, o, []⟩ ∧
    joinContext [] = [] := by
  constructor
  · simp [generate_response, classifierInvoke, jsonOutputParse, hc, hs]
  · rfl

/-- C6 (witness): the theorem applied on the fresh state over the empty
disk, where the lazily attached store is empty and retrieval returns no
chunks. -/
theorem c6_witness :
    (generate_response (llmOf goodClassification) emptyDisk kb0 chain0 "ticket").2 =
      Except.ok ⟨chain0 (joinContext []) goodClassification "ticket",
        goodClassification, []⟩ ∧
    joinContext [] = [] :=
  c6_empty_retrieval_ok (llmOf goodClassification) emptyDisk kb0 chain0 "ticket"
    goodClassification rfl (by decide)

/-! ## Lemmas about the text splitter (towards C7 and C8) -/

namespace TextSplitter

theorem sumLen_nil : sumLen [] = 0 := rfl

theorem sumLen_cons (a : List Char) (l : List (List Char)) :
    sumLen (a :: l) = a.length + sumLen l := by
  simp [sumLen]

theorem sumLen_append (a b : List (List Char)) :
    sumLen (a ++ b) = sumLen a + sumLen b := by
  simp [sumLen]

theorem sumLen_flatten (l : List (List Char)) : l.flatten.length = sumLen l := by
  simp [sumLen, List.length_flatten]

theorem dropWhile_length_le (p : Char → Bool) :
    ∀ l : List Char, (l.dropWhile p).length ≤ l.length := by
  intro l
  induction l with
  | nil => simp
  | cons a as ih =>
    rw [List.dropWhile_cons]
    by_cases ha : p a = true
    · rw [if_pos ha]
      calc (as.dropWhile p).length ≤ as.length := ih
        _ ≤ (a :: as).length := by simp
    · rw [if_neg ha]

theorem stripWS_length_le (l : List Char) : (stripWS l).length ≤ l.length := by
  calc (stripWS l).length
      = ((l.dropWhile Char.isWhitespace).reverse.dropWhile Char.isWhitespace).length := by
        simp [stripWS]
    _ ≤ (l.dropWhile Char.isWhitespace).reverse.length := dropWhile_length_le _ _
    _ = (l.dropWhile Char.isWhitespace).length := by simp
    _ ≤ l.length := dropWhile_length_le _ _

theorem mem_dropWhile_of_neg {p : Char → Bool} {c : Char} (hc : p c = false) :
    ∀ {l : List Char}, c ∈ l → c ∈ l.dropWhile p := by
  intro l
  induction l with
  | nil => intro h; exact absurd h (List.not_mem_nil c)
  | cons a as ih =>
    intro h
    rw [List.dropWhile_cons]
    by_cases ha : p a = true
    · rw [if_pos ha]
      rcases List.mem_cons.mp h with rfl | h2
      · rw [hc] at ha; exact absurd ha (by simp)
      · exact ih h2
    · rw [if_neg ha]
      exact h

theorem mem_stripWS {c : Char} {l : List Char} (hc : c.isWhitespace = false)
    (h : c ∈ l) : c ∈ stripWS l := by
  rw [stripWS, List.mem_reverse]
  apply mem_dropWhile_of_neg hc
  rw [List.mem_reverse]
  exact mem_dropWhile_of_neg hc h

theorem joinDocs_length {cur : List (List Char)} {ch : List Char}
    (h : ch ∈ joinDocs cur) : ch.length ≤ sumLen cur := by
  simp only [joinDocs] at h
  by_cases he : stripWS cur.flatten = []
  · rw [if_pos he] at h
    exact absurd h (List.not_mem_nil ch)
  · rw [if_neg he] at h
    rcases List.mem_singleton.mp h with rfl
    calc (stripWS cur.flatten).length ≤ cur.flatten.length := stripWS_length_le _
      _ = sumLen cur := sumLen_flatten cur

theorem joinDocs_cover {cur : List (List Char)} {c : Char}
    (hc : c.isWhitespace = false) (h : c ∈ cur.flatten) :
    ∃ ch ∈ joinDocs cur, c ∈ ch := by
  have hmem : c ∈ stripWS cur.flatten := mem_stripWS hc h
  have hne : stripWS cur.flatten ≠ [] := by
    intro he
    rw [he] at hmem
    exact absurd hmem (List.not_mem_nil c)
  refine ⟨stripWS cur.flatten, ?_, hmem⟩
  simp [joinDocs, hne]

theorem dropOverlap_le (ov cs ld : Nat) : ∀ cur, sumLen (dropOverlap ov cs ld cur) ≤ ov := by
  intro cur
  induction cur with
  | nil => simp [dropOverlap, sumLen_nil]
  | cons c rest ih =>
    rw [dropOverlap]
    by_cases hcond : sumLen (c :: rest) > ov ∨
        (sumLen (c :: rest) + ld > cs ∧ sumLen (c :: rest) > 0)
    · rw [if_pos hcond]; exact ih
    · rw [if_neg hcond]
      push_neg at hcond
      exact hcond.1

theorem dropOverlap_fit (ov cs ld : Nat) : ∀ cur,
    sumLen (dropOverlap ov cs ld cur) + ld ≤ cs ∨ sumLen (dropOverlap ov cs ld cur) = 0 := by
  intro cur
  induction cur with
  | nil => right; simp [dropOverlap, sumLen_nil]
  | cons c rest ih =>
    rw [dropOverlap]
    by_cases hcond : sumLen (c :: rest) > ov ∨
        (sumLen (c :: rest) + ld > cs ∧ sumLen (c :: rest) > 0)
    · rw [if_pos hcond]; exact ih
    · rw [if_neg hcond]
      push_neg at hcond
      by_cases hB : sumLen (c :: rest) + ld > cs
      · right
        have := hcond.2 hB
        omega
      · left
        omega

theorem mergeStep_bound (cs ov : Nat) {acc : List (List Char) × List (List Char)}
    {d : List Char} (h1 : ∀ ch ∈ acc.1, ch.length ≤ cs) (h2 : sumLen acc.2 ≤ cs)
    (hd : d.length ≤ cs) :
    (∀ ch ∈ (mergeStep cs ov acc d).1, ch.length ≤ cs) ∧
      sumLen (mergeStep cs ov acc d).2 ≤ cs := by
  rw [mergeStep]
  by_cases hov : sumLen acc.2 + d.length > cs
  · rw [if_pos hov]
    by_cases hcur : acc.2 = []
    · rw [if_pos hcur]
      refine ⟨h1, ?_⟩
      rw [sumLen_cons, sumLen_nil]
      omega
    · rw [if_neg hcur]
      constructor
      · intro ch hch
        rcases List.mem_append.mp hch with h | h
        · exact h1 ch h
        · have := joinDocs_length h
          omega
      · rw [sumLen_append, sumLen_cons, sumLen_nil]
        rcases dropOverlap_fit ov cs d.length acc.2 with hf | hf
        · omega
        · omega
  · rw [if_neg hov]
    refine ⟨h1, ?_⟩
    rw [sumLen_append, sumLen_cons, sumLen_nil]
    omega

theorem mergeFold_bound (cs ov : Nat) :
    ∀ (splits : List (List Char)) (acc : List (List Char) × List (List Char)),
    (∀ ch ∈ acc.1, ch.length ≤ cs) → sumLen acc.2 ≤ cs → (∀ s ∈ splits, s.length ≤ cs) →
    (∀ ch ∈ (splits.foldl (mergeStep cs ov) acc).1, ch.length ≤ cs) ∧
      sumLen (splits.foldl (mergeStep cs ov) acc).2 ≤ cs := by
  intro splits
  induction splits with
  | nil => intro acc h1 h2 _; exact ⟨h1, h2⟩
  | cons d rest ih =>
    intro acc h1 h2 h3
    rw [List.foldl_cons]
    have hd : d.length ≤ cs := h3 d (List.mem_cons_self d rest)
    have hstep := mergeStep_bound cs ov h1 h2 hd
    exact ih _ hstep.1 hstep.2 (fun s hs => h3 s (List.mem_cons_of_mem d hs))

theorem mergeSplits_bound {cs ov : Nat} {splits : List (List Char)}
    (h : ∀ s ∈ splits, s.length ≤ cs) :
    ∀ ch ∈ mergeSplits cs ov splits, ch.length ≤ cs := by
  intro ch hch
  simp only [mergeSplits] at hch
  have hb := mergeFold_bound cs ov splits ([], [])
    (by intro ch hc; exact absurd hc (List.not_mem_nil ch)) (by rw [sumLen_nil]; omega) h
  rcases List.mem_append.mp hch with h1 | h2
  · exact hb.1 ch h1
  · have := joinDocs_length h2
    omega

theorem mergeStep_cover (cs ov : Nat) {acc : List (List Char) × List (List Char)}
    {d : List Char} {c : Char} (hc : c.isWhitespace = false)
    (h : (∃ ch ∈ acc.1, c ∈ ch) ∨ c ∈ acc.2.flatten ∨ c ∈ d) :
    (∃ ch ∈ (mergeStep cs ov acc d).1, c ∈ ch) ∨ c ∈ (mergeStep cs ov acc d).2.flatten := by
  rw [mergeStep]
  by_cases hov : sumLen acc.2 + d.length > cs
  · rw [if_pos hov]
    by_cases hcur : acc.2 = []
    · rw [if_pos hcur]
      rcases h with ⟨ch, hch, hcc⟩ | h2 | h3
      · exact Or.inl ⟨ch, hch, hcc⟩
      · rw [hcur] at h2
        simp at h2
      · right
        simpa using h3
    · rw [if_neg hcur]
      rcases h with ⟨ch, hch, hcc⟩ | h2 | h3
      · exact Or.inl ⟨ch, List.mem_append_left _ hch, hcc⟩
      · left
        obtain ⟨ch, hch, hcc⟩ := joinDocs_cover hc h2
        exact ⟨ch, List.mem_append_right _ hch, hcc⟩
      · right
        rw [List.flatten_append]
        apply List.mem_append_right
        simpa using h3
  · rw [if_neg hov]
    rcases h with ⟨ch, hch, hcc⟩ | h2 | h3
    · exact Or.inl ⟨ch, hch, hcc⟩
    · right
      rw [List.flatten_append]
      exact List.mem_append_left _ h2
    · right
      rw [List.flatten_append]
      apply List.mem_append_right
      simpa using h3

theorem mergeFold_cover (cs ov : Nat) :
    ∀ (splits : List (List Char)) (acc : List (List Char) × List (List Char)) (c : Char),
    c.isWhitespace = false →
    ((∃ ch ∈ acc.1, c ∈ ch) ∨ c ∈ acc.2.flatten ∨ ∃ d ∈ splits, c ∈ d) →
    ∃ ch ∈ (splits.foldl (mergeStep cs ov) acc).1 ++
        joinDocs (splits.foldl (mergeStep cs ov) acc).2, c ∈ ch := by
  intro splits
  induction splits with
  | nil =>
    intro acc c hc h
    rcases h with ⟨ch, hch, hcc⟩ | h2 | ⟨d, hd, _⟩
    · exact ⟨ch, List.mem_append_left _ hch, hcc⟩
    · obtain ⟨ch, hch, hcc⟩ := joinDocs_cover hc h2
      exact ⟨ch, List.mem_append_right _ hch, hcc⟩
    · exact absurd hd (List.not_mem_nil d)
  | cons d rest ih =>
    intro acc c hc h
    rw [List.foldl_cons]
    apply ih _ c hc
    rcases h with h1 | h2 | ⟨d2, hd2, hcd2⟩
    · rcases mergeStep_cover cs ov hc (Or.inl h1) with a | b
      · exact Or.inl a
      · exact Or.inr (Or.inl b)
    · rcases @mergeStep_cover cs ov acc d c hc (Or.inr (Or.inl h2)) with a | b
      · exact Or.inl a
      · exact Or.inr (Or.inl b)
    · rcases List.mem_cons.mp hd2 with heq | hrest
      · subst heq
        rcases mergeStep_cover cs ov hc (Or.inr (Or.inr hcd2)) with a | b
        · exact Or.inl a
        · exact Or.inr (Or.inl b)
      · exact Or.inr (Or.inr ⟨d2, hrest, hcd2⟩)

theorem mergeSplits_cover {cs ov : Nat} {splits : List (List Char)} {d : List Char}
    {c : Char} (hc : c.isWhitespace = false) (hd : d ∈ splits) (hcd : c ∈ d) :
    ∃ ch ∈ mergeSplits cs ov splits, c ∈ ch := by
  simp only [mergeSplits]
  exact mergeFold_cover cs ov splits ([], []) c hc (Or.inr (Or.inr ⟨d, hd, hcd⟩))

end TextSplitter

namespace TextSplitter

theorem flatten_filter_ne_nil :
    ∀ ls : List (List Char), (ls.filter (· ≠ [])).flatten = ls.flatten := by
  intro ls
  induction ls with
  | nil => rfl
  | cons a as ih =>
    rw [List.filter_cons]
    by_cases ha : a = []
    · subst ha
      rw [if_neg (by simp), ih]
      simp
    · rw [if_pos (by simp [ha]), List.flatten_cons, List.flatten_cons, ih]

theorem flatten_map_singleton :
    ∀ text : List Char, (text.map (fun c => [c])).flatten = text := by
  intro text
  induction text with
  | nil => rfl
  | cons c cs ih => simp [ih]

theorem rawPiecesF_congr {sep : List Char} : ∀ (f1 f2 : Nat) (text : List Char),
    text.length ≤ f1 → text.length ≤ f2 → rawPiecesF sep f1 text = rawPiecesF sep f2 text := by
  intro f1
  induction f1 with
  | zero =>
    intro f2 text h1 _
    have ht : text = [] := List.eq_nil_of_length_eq_zero (Nat.le_zero.mp h1)
    subst ht
    cases f2 with
    | zero => rfl
    | succ m =>
      simp only [rawPiecesF]
      by_cases hs : sep = []
      · rw [if_pos hs]
      · rw [if_neg hs]
        rfl
  | succ m ih =>
    intro f2 text h1 h2
    cases f2 with
    | zero =>
      have ht : text = [] := List.eq_nil_of_length_eq_zero (Nat.le_zero.mp h2)
      subst ht
      simp only [rawPiecesF]
      by_cases hs : sep = []
      · rw [if_pos hs]
      · rw [if_neg hs]
        rfl
    | succ m2 =>
      simp only [rawPiecesF]
      by_cases hs : sep = []
      · rw [if_pos hs, if_pos hs]
      · rw [if_neg hs, if_neg hs]
        cases hf : findSplit sep text with
        | none => rfl
        | some pr =>
          obtain ⟨pre, rest⟩ := pr
          have hr := findSplit_rest_lt hs hf
          show pre :: rawPiecesF sep m rest = pre :: rawPiecesF sep m2 rest
          rw [ih m2 rest (by omega) (by omega)]

theorem rawPieces_none {sep text : List Char} (hs : sep ≠ [])
    (hf : findSplit sep text = none) : rawPieces sep text = [text] := by
  simp only [rawPieces]
  cases hl : text.length with
  | zero => rfl
  | succ m =>
    simp only [rawPiecesF]
    rw [if_neg hs, hf]

theorem rawPieces_cons {sep text pre rest : List Char} (hs : sep ≠ [])
    (hf : findSplit sep text = some (pre, rest)) :
    rawPieces sep text = pre :: rawPieces sep rest := by
  simp only [rawPieces]
  cases text with
  | nil =>
    have : (none : Option (List Char × List Char)) = some (pre, rest) := hf
    exact absurd this (by simp)
  | cons c cs2 =>
    simp only [List.length_cons, rawPiecesF]
    rw [if_neg hs, hf]
    have hr := findSplit_rest_lt hs hf
    show pre :: rawPiecesF sep cs2.length rest = pre :: rawPiecesF sep rest.length rest
    rw [rawPiecesF_congr cs2.length rest.length rest (by simp at hr; omega) le_rfl]

theorem rawPieces_ne_nil (sep text : List Char) : rawPieces sep text ≠ [] := by
  by_cases hs : sep = []
  · simp only [rawPieces]
    cases hl : text.length with
    | zero => simp [rawPiecesF]
    | succ m =>
      simp only [rawPiecesF]
      rw [if_pos hs]
      simp
  · cases hf : findSplit sep text with
    | none =>
      rw [rawPieces_none hs hf]
      simp
    | some pr =>
      obtain ⟨p, r⟩ := pr
      rw [rawPieces_cons hs hf]
      simp

theorem rawPieces_flatten {sep : List Char} (hs : sep ≠ []) : ∀ (n : Nat) (text : List Char),
    text.length ≤ n →
    (match rawPieces sep text with
      | [] => ([] : List (List Char))
      | p :: ps => p :: ps.map (fun q => sep ++ q)).flatten = text := by
  intro n
  induction n with
  | zero =>
    intro text ht
    have htn : text = [] := List.eq_nil_of_length_eq_zero (Nat.le_zero.mp ht)
    subst htn
    have h0 : rawPieces sep ([] : List Char) = [([] : List Char)] := rawPieces_none hs rfl
    rw [h0]
    rfl
  | succ n ih =>
    intro text ht
    cases hf : findSplit sep text with
    | none =>
      rw [rawPieces_none hs hf]
      simp
    | some pr =>
      obtain ⟨pre, rest⟩ := pr
      have htext := findSplit_eq hf
      have hlen : rest.length ≤ n := by
        have := findSplit_rest_lt hs hf
        omega
      rw [rawPieces_cons hs hf]
      show (pre :: (rawPieces sep rest).map (fun q => sep ++ q)).flatten = text
      obtain ⟨q, qs, hq⟩ : ∃ q qs, rawPieces sep rest = q :: qs := by
        cases hq : rawPieces sep rest with
        | nil => exact absurd hq (rawPieces_ne_nil sep rest)
        | cons q qs => exact ⟨q, qs, rfl⟩
      have hrec := ih rest hlen
      rw [hq] at hrec
      have hrec2 : (q :: qs.map (fun r => sep ++ r)).flatten = rest := hrec
      rw [hq]
      simp only [List.map_cons, List.flatten_cons] at hrec2 ⊢
      rw [htext, ← hrec2]
      simp [List.append_assoc]

theorem splitWithSep_flatten (sep text : List Char) :
    (splitWithSep sep text).flatten = text := by
  simp only [splitWithSep]
  by_cases hs : sep = []
  · rw [if_pos hs, flatten_filter_ne_nil, flatten_map_singleton]
  · rw [if_neg hs, flatten_filter_ne_nil]
    exact rawPieces_flatten hs text.length text le_rfl

theorem splitWithSep_cover {sep text : List Char} {c : Char} (h : c ∈ text) :
    ∃ s ∈ splitWithSep sep text, c ∈ s := by
  have hf := splitWithSep_flatten sep text
  rw [← hf] at h
  exact List.mem_flatten.mp h

theorem splitWithSep_len_one {text : List Char} :
    ∀ s ∈ splitWithSep [] text, s.length = 1 := by
  intro s hs
  simp only [splitWithSep, if_pos rfl] at hs
  have hm := (List.mem_filter.mp hs).1
  obtain ⟨c, _, rfl⟩ := List.mem_map.mp hm
  rfl

theorem chooseSep_empty_mem {seps : List (List Char)} (text : List Char)
    (h : [] ∈ seps) :
    chooseSep text seps = ([], []) ∨
      ((chooseSep text seps).2 ≠ [] ∧ [] ∈ (chooseSep text seps).2) := by
  induction seps with
  | nil => exact absurd h (List.not_mem_nil _)
  | cons s rest ih =>
    cases rest with
    | nil =>
      have hs : s = [] := by
        rcases List.mem_cons.mp h with heq | hm
        · exact heq.symm
        · exact absurd hm (List.not_mem_nil _)
      subst hs
      left
      simp [chooseSep]
    | cons s2 rest2 =>
      by_cases hs : s = []
      · subst hs
        left
        simp [chooseSep]
      · have hmem : [] ∈ s2 :: rest2 := by
          rcases List.mem_cons.mp h with heq | hm
          · exact absurd heq.symm hs
          · exact hm
        by_cases ho : (findSplit s text).isSome
        · right
          rw [chooseSep, if_neg hs, if_pos ho]
          exact ⟨by simp, hmem⟩
        · rw [chooseSep, if_neg hs, if_neg ho]
          exact ih hmem

theorem flushAux_bound (cs ov : Nat) :
    ∀ (items : List ((List Char) ⊕ (List (List Char)))) (goods : List (List Char)),
    (∀ g ∈ goods, g.length ≤ cs) →
    (∀ it ∈ items, match it with
      | Sum.inl s => s.length ≤ cs
      | Sum.inr blk => ∀ b ∈ blk, b.length ≤ cs) →
    ∀ ch ∈ flushAux cs ov goods items, ch.length ≤ cs := by
  intro items
  induction items with
  | nil =>
    intro goods hg _ ch hch
    rw [flushAux] at hch
    exact mergeSplits_bound hg ch hch
  | cons it rest ih =>
    intro goods hg hitems ch hch
    cases it with
    | inl s =>
      rw [flushAux] at hch
      have hlen : s.length ≤ cs := hitems (Sum.inl s) (List.mem_cons_self _ _)
      refine ih (goods ++ [s]) ?_ (fun i hi => hitems i (List.mem_cons_of_mem _ hi)) ch hch
      intro g hgm
      rcases List.mem_append.mp hgm with h1 | h2
      · exact hg g h1
      · rcases List.mem_singleton.mp h2 with rfl
        exact hlen
    | inr blk =>
      rw [flushAux] at hch
      rcases List.mem_append.mp hch with h1 | h2
      · rcases List.mem_append.mp h1 with h3 | h4
        · exact mergeSplits_bound hg ch h3
        · exact hitems (Sum.inr blk) (List.mem_cons_self _ _) ch h4
      · exact ih []
          (by intro g hgm; exact absurd hgm (List.not_mem_nil g))
          (fun i hi => hitems i (List.mem_cons_of_mem _ hi)) ch h2

theorem flushAux_cover (cs ov : Nat) :
    ∀ (items : List ((List Char) ⊕ (List (List Char)))) (goods : List (List Char)) (c : Char),
    c.isWhitespace = false →
    ((∃ g ∈ goods, c ∈ g) ∨ ∃ it ∈ items, (match it with
      | Sum.inl s => c ∈ s
      | Sum.inr blk => ∃ b ∈ blk, c ∈ b)) →
    ∃ ch ∈ flushAux cs ov goods items, c ∈ ch := by
  intro items
  induction items with
  | nil =>
    intro goods c hc h
    rcases h with ⟨g, hg, hcg⟩ | ⟨it, hit, _⟩
    · rw [flushAux]
      exact mergeSplits_cover hc hg hcg
    · exact absurd hit (List.not_mem_nil it)
  | cons it rest ih =>
    intro goods c hc h
    cases it with
    | inl s =>
      rw [flushAux]
      apply ih (goods ++ [s]) c hc
      rcases h with ⟨g, hg, hcg⟩ | ⟨it2, hit2, hcov⟩
      · exact Or.inl ⟨g, List.mem_append_left _ hg, hcg⟩
      · rcases List.mem_cons.mp hit2 with heq | hm
        · subst heq
          exact Or.inl ⟨s, List.mem_append_right _ (List.mem_singleton.mpr rfl), hcov⟩
        · exact Or.inr ⟨it2, hm, hcov⟩
    | inr blk =>
      rw [flushAux]
      rcases h with ⟨g, hg, hcg⟩ | ⟨it2, hit2, hcov⟩
      · obtain ⟨ch, hch, hcc⟩ := @mergeSplits_cover cs ov goods g c hc hg hcg
        exact ⟨ch, List.mem_append_left _ (List.mem_append_left _ hch), hcc⟩
      · rcases List.mem_cons.mp hit2 with heq | hm
        · subst heq
          obtain ⟨b, hb, hcb⟩ := hcov
          exact ⟨b, List.mem_append_left _ (List.mem_append_right _ hb), hcb⟩
        · obtain ⟨ch, hch, hcc⟩ := ih [] c hc (Or.inr ⟨it2, hm, hcov⟩)
          exact ⟨ch, List.mem_append_right _ hch, hcc⟩

end TextSplitter

namespace TextSplitter

theorem splitTextF_congr (cs ov : Nat) : ∀ (f1 f2 : Nat) (seps : List (List Char))
    (text : List Char), seps.length ≤ f1 → seps.length ≤ f2 →
    splitTextF cs ov f1 seps text = splitTextF cs ov f2 seps text := by
  intro f1
  induction f1 with
  | zero =>
    intro f2 seps text h1 _
    have hseps : seps = [] := List.eq_nil_of_length_eq_zero (Nat.le_zero.mp h1)
    subst hseps
    cases f2 with
    | zero => rfl
    | succ m =>
      simp only [splitTextF]
      congr 1
  | succ m ih =>
    intro f2 seps text h1 h2
    cases f2 with
    | zero =>
      have hseps : seps = [] := List.eq_nil_of_length_eq_zero (Nat.le_zero.mp h2)
      subst hseps
      simp only [splitTextF]
      congr 1
    | succ m2 =>
      simp only [splitTextF]
      congr 1
      apply List.map_congr_left
      intro s _
      by_cases hlen : s.length < cs
      · rw [if_pos hlen, if_pos hlen]
      · rw [if_neg hlen, if_neg hlen]
        by_cases hsel : (chooseSep text seps).2 = []
        · rw [if_pos hsel, if_pos hsel]
        · rw [if_neg hsel, if_neg hsel]
          have hne : seps ≠ [] := by
            rintro rfl
            exact hsel rfl
          have hlt := chooseSep_snd_length text hne
          rw [ih m2 (chooseSep text seps).2 s (by omega) (by omega)]

theorem splitText_eq (cs ov : Nat) (seps : List (List Char)) (text : List Char) :
    splitText cs ov seps text =
      flushAux cs ov []
        ((splitWithSep (chooseSep text seps).1 text).map (fun s =>
          if s.length < cs then Sum.inl s
          else if (chooseSep text seps).2 = [] then Sum.inr [s]
          else Sum.inr (splitText cs ov (chooseSep text seps).2 s))) := by
  simp only [splitText]
  cases hs : seps with
  | nil =>
    simp only [List.length_nil, splitTextF]
    congr 1
  | cons a rest =>
    simp only [List.length_cons, splitTextF]
    congr 1
    apply List.map_congr_left
    intro s _
    by_cases hlen : s.length < cs
    · rw [if_pos hlen, if_pos hlen]
    · rw [if_neg hlen, if_neg hlen]
      by_cases hsel : (chooseSep text (a :: rest)).2 = []
      · rw [if_pos hsel, if_pos hsel]
      · rw [if_neg hsel, if_neg hsel]
        have hlt := chooseSep_snd_length text (List.cons_ne_nil a rest)
        rw [splitTextF_congr cs ov rest.length (chooseSep text (a :: rest)).2.length
          (chooseSep text (a :: rest)).2 s (by simp only [List.length_cons] at hlt; omega) le_rfl]

theorem splitText_bound (cs ov : Nat) (hcs : 2 ≤ cs) : ∀ (n : Nat) (seps : List (List Char)),
    seps.length ≤ n → [] ∈ seps → ∀ (text ch : List Char),
    ch ∈ splitText cs ov seps text → ch.length ≤ cs := by
  intro n
  induction n with
  | zero =>
    intro seps hl he
    have : seps = [] := List.eq_nil_of_length_eq_zero (Nat.le_zero.mp hl)
    subst this
    exact absurd he (List.not_mem_nil _)
  | succ n ih =>
    intro seps hl he text ch hch
    rw [splitText_eq] at hch
    have hne : seps ≠ [] := by
      intro hnil
      subst hnil
      exact absurd he (List.not_mem_nil _)
    rcases chooseSep_empty_mem text he with hsel | ⟨hne2, hmem⟩
    · -- the empty separator was selected: every split is a single character
      rw [hsel] at hch
      refine flushAux_bound cs ov _ []
        (by intro g hg; exact absurd hg (List.not_mem_nil g)) ?_ ch hch
      intro it hit
      obtain ⟨s, hs, rfl⟩ := List.mem_map.mp hit
      have h1 : s.length = 1 := splitWithSep_len_one s hs
      rw [if_pos (by omega)]
      show s.length ≤ cs
      omega
    · -- a separator remains to recurse on
      refine flushAux_bound cs ov _ []
        (by intro g hg; exact absurd hg (List.not_mem_nil g)) ?_ ch hch
      intro it hit
      obtain ⟨s, hs, rfl⟩ := List.mem_map.mp hit
      by_cases hlen : s.length < cs
      · rw [if_pos hlen]
        show s.length ≤ cs
        omega
      · rw [if_neg hlen, if_neg hne2]
        show ∀ b ∈ splitText cs ov (chooseSep text seps).2 s, b.length ≤ cs
        intro b hb
        have hlt := chooseSep_snd_length text hne
        exact ih (chooseSep text seps).2 (by omega) hmem s b hb

theorem splitText_cover (cs ov : Nat) : ∀ (n : Nat) (seps : List (List Char)),
    seps.length ≤ n → ∀ (text : List Char) (c : Char), c ∈ text →
    c.isWhitespace = false → ∃ ch ∈ splitText cs ov seps text, c ∈ ch := by
  intro n
  induction n with
  | zero =>
    intro seps hl text c hct hc
    have : seps = [] := List.eq_nil_of_length_eq_zero (Nat.le_zero.mp hl)
    subst this
    rw [splitText_eq]
    obtain ⟨s, hs, hcs2⟩ := @splitWithSep_cover (chooseSep text ([] : List (List Char))).1 text c hct
    apply flushAux_cover cs ov _ [] c hc
    right
    refine ⟨_, List.mem_map_of_mem _ hs, ?_⟩
    have hsel : chooseSep text ([] : List (List Char)) = ([], []) := rfl
    rw [hsel]
    by_cases hlen : s.length < cs
    · rw [if_pos hlen]
      exact hcs2
    · rw [if_neg hlen, if_pos rfl]
      show ∃ b ∈ [s], c ∈ b
      exact ⟨s, List.mem_singleton.mpr rfl, hcs2⟩
  | succ n ih =>
    intro seps hl text c hct hc
    rw [splitText_eq]
    obtain ⟨s, hs, hcs2⟩ := @splitWithSep_cover (chooseSep text seps).1 text c hct
    apply flushAux_cover cs ov _ [] c hc
    right
    refine ⟨_, List.mem_map_of_mem _ hs, ?_⟩
    by_cases hlen : s.length < cs
    · rw [if_pos hlen]
      exact hcs2
    · rw [if_neg hlen]
      by_cases hsel2 : (chooseSep text seps).2 = []
      · rw [if_pos hsel2]
        show ∃ b ∈ [s], c ∈ b
        exact ⟨s, List.mem_singleton.mpr rfl, hcs2⟩
      · rw [if_neg hsel2]
        show ∃ b ∈ splitText cs ov (chooseSep text seps).2 s, c ∈ b
        have hne : seps ≠ [] := by
          intro hnil
          subst hnil
          exact hsel2 rfl
        have hlt := chooseSep_snd_length text hne
        exact ih (chooseSep text seps).2 (by omega) s c hcs2 hc

end TextSplitter

/-! ## Claims C7, C8 — document chunking -/

/-- A 700-character run of `a`. -/
def aChunk : List Char := List.replicate 700 'a'

/-- A 700-character run of `b`. -/
def bChunk : List Char := List.replicate 700 'b'

/-- A document made of two 700-character paragraphs separated by a blank
line: each paragraph fits a chunk on its own, so the splitter emits them as
two chunks that share no text at all. -/
def docCtr : Document := ⟨aChunk ++ ['\n', '\n'] ++ bChunk, [("source", "faq.txt")]⟩

/-- A document ending in a space: the trailing space is stripped from the
only chunk and survives in none. -/
def docWS : Document := ⟨['a', ' '], [("source", "faq.txt")]⟩

/-- A two-character whitespace-free document. -/
def docW : Document := ⟨['h', 'i'], []⟩

/-- C7 (counterexample).  The claim states that with the default
parameters, consecutive chunks of the same document share `overlap = 100`
characters.  Splitting `docCtr` yields the two paragraph chunks
unchanged — the last 100 characters of the first chunk (all `a`) are not
the first 100 characters of the second (all `b`): the two consecutive
chunks share nothing, because the splitter's carried overlap consists of
whole splits fitting in 100 characters and the 700-character first
paragraph is popped entirely. -/
theorem c7_counterexample :
    (KnowledgeBase.load_documents_split [docCtr]).map Document.content = [aChunk, bChunk] ∧
    aChunk.drop (aChunk.length - 100) ≠ bChunk.take 100 :=
  ⟨by decide, by decide⟩

/-- C7 (amended).  With the parameters of `load_documents`
(`chunk_size = 800`, `chunk_overlap = 100`): every produced chunk is at
most 800 characters long and carries the metadata of a parent document;
and the overlap carried from one chunk into the next is at most 100
characters (the pop loop runs until the carried total is within the
overlap budget), rather than exactly 100. -/
theorem c7_chunk_bound_and_metadata :
    (∀ (docs : List Document), ∀ ch ∈ KnowledgeBase.load_documents_split docs,
      ch.content.length ≤ 800 ∧ ∃ d ∈ docs, ch.metadata = d.metadata) ∧
    (∀ lenD cur, sumLen (TextSplitter.dropOverlap 100 800 lenD cur) ≤ 100) := by
  constructor
  · intro docs ch hch
    simp only [KnowledgeBase.load_documents_split, TextSplitter.splitDocuments] at hch
    obtain ⟨l, hl, hchl⟩ := List.mem_flatten.mp hch
    obtain ⟨d, hd, rfl⟩ := List.mem_map.mp hl
    obtain ⟨ct, hct, rfl⟩ := List.mem_map.mp hchl
    refine ⟨?_, d, hd, rfl⟩
    exact TextSplitter.splitText_bound 800 100 (by omega) 4 TextSplitter.defaultSeparators
      (by decide) (by decide) d.content ct hct
  · intro lenD cur
    exact TextSplitter.dropOverlap_le 100 800 lenD cur

/-- C8 (counterexample).  The claim states that every character of a
document appears in at least one produced chunk.  For the document `"a "`
(with `max_size = 800 > overlap = 100`), the splitter strips the trailing
space when joining the chunk, so the space character appears in no chunk. -/
theorem c8_counterexample :
    (' ' ∈ docWS.content) ∧
    TextSplitter.splitDocuments 800 100 TextSplitter.defaultSeparators [docWS] =
      [⟨['a'], [("source", "faq.txt")]⟩] ∧
    (' ' ∉ (['a'] : List Char)) :=
  ⟨by decide, by decide, by decide⟩

/-- C8 (amended).  For every document split with `max_size = M` and
`overlap = O` (`O < M`), every non-whitespace character of the document
appears in at least one produced chunk: the splitter loses characters only
by whitespace-stripping each chunk at join time. -/
theorem c8_nonwhitespace_coverage (M O : Nat) (d : Document) (hMO : O < M) :
    ∀ c ∈ d.content, c.isWhitespace = false →
    ∃ ch ∈ TextSplitter.splitDocuments M O TextSplitter.defaultSeparators [d],
      c ∈ ch.content := by
  intro c hc hw
  obtain ⟨ct, hct, hcc⟩ := TextSplitter.splitText_cover M O 4 TextSplitter.defaultSeparators
    (by decide) d.content c hc hw
  refine ⟨Document.mk ct d.metadata, ?_, hcc⟩
  simp only [TextSplitter.splitDocuments]
  apply List.mem_flatten.mpr
  refine ⟨(TextSplitter.splitText M O TextSplitter.defaultSeparators d.content).map
    (fun content => Document.mk content d.metadata), ?_, ?_⟩
  · exact List.mem_map_of_mem _ (List.mem_singleton.mpr rfl)
  · exact List.mem_map_of_mem _ hct

/-- C8 (witness): the amended theorem applied to the concrete document
`"hi"` at the character `h`. -/
theorem c8_witness :
    ∃ ch ∈ TextSplitter.splitDocuments 800 100 TextSplitter.defaultSeparators [docW],
      'h' ∈ ch.content :=
  c8_nonwhitespace_coverage 800 100 docW (by omega) 'h' (by decide) (by decide)
